import Mathlib

/-!
Shallow embedding of the availability intersection and merge engine of
`analyze.py` (repository when2when).

Modelling conventions:
* A naive `datetime` is modelled as an `Int`: the number of seconds since
  midnight of a fixed reference day (Python `datetime` subtraction yields a
  `timedelta`, whose normalized `seconds` component is the total seconds
  modulo 86400 with floor semantics — `Int.emod` matches Python `%`).
* A `timedelta(minutes=m)` is the integer `60 * m` seconds.
* A Python `dict` is modelled as an association list with distinct keys in
  insertion order; `dict.get(k, default)` is `List.lookup` with a default,
  and `d[k] = v` is `dictInsert` (replace in place when the key exists,
  append otherwise), which is exactly CPython's observable dict behaviour.
* `strftime("%Y-%m-%d")` is modelled by the day index `t / 86400`
  (floor division), which over the `datetime` range is in order-preserving
  bijection with the rendered date string.
* Python's `sorted` on integers is modelled by an insertion sort
  (`sortInts`); on the blocker dictionary items, Python's `sorted` is a
  stable sort by descending count, modelled by the stable insertion sort
  `sortDesc` (a stable sort's output is uniquely determined by the key and
  the input order, so any stable implementation is faithful).
-/

/-- `schemas.NormalizedData`: the normalized schedule handed to the core. -/
structure NormalizedData where
  source : String
  name : String
  participants : List String
  slot_minutes : Int
  slots : List Int
  availability : List (Int × List String)

/-- First-match association-list lookup with default `[]`, modelling
`dict.get(key, [])` (a Python dict has distinct keys, so first match is the
match). -/
def assocGet (t : Int) : List (Int × List String) → List String
  | [] => []
  | e :: rest => if e.1 = t then e.2 else assocGet t rest

/-- `data["availability"].get(slot, [])`. -/
def availAt (d : NormalizedData) (t : Int) : List String :=
  assocGet t d.availability

/-- `analyze.find_available_times`: the Availability Intersector.  The Python
generator yields, in order, each slot of `data["slots"]` whose availability
set contains every requested participant; materialized here as the
corresponding `List.filter`. -/
def find_available_times (d : NormalizedData) (participants : List String) : List Int :=
  d.slots.filter (fun slot => participants.all (fun p => (availAt d slot).contains p))

/-- Insertion of an `Int` into a list, keeping `(· ≤ ·)` order. -/
def insertLe (x : Int) : List Int → List Int
  | [] => [x]
  | y :: ys => if x ≤ y then x :: y :: ys else y :: insertLe x ys

/-- Python `sorted` on a list of instants (ascending insertion sort). -/
def sortInts : List Int → List Int
  | [] => []
  | x :: xs => insertLe x (sortInts xs)

/-- The loop body of `analyze.merge_consecutive_slots`: walks the remaining
sorted slots carrying the open range `[start, e]` and the accumulator
`merged`; on exhaustion it appends the final closed range
`(start, e + timedelta(minutes=sm))`. -/
def mergeLoop (sm : Int) (start e : Int) (merged : List (Int × Int)) :
    List Int → List (Int × Int)
  | [] => merged ++ [(start, e + 60 * sm)]
  | slot :: rest =>
    if slot - e = 60 * sm then mergeLoop sm start slot merged rest
    else mergeLoop sm slot slot (merged ++ [(start, e + 60 * sm)]) rest

/-- `analyze.merge_consecutive_slots`: the Slot Range Merger.  Sorts the
input, folds it into maximal runs of consecutive slots, and finally drops
ranges shorter than `min_duration_minutes` when that threshold is positive. -/
def merge_consecutive_slots (slots : List Int) (slot_minutes : Int)
    (min_duration_minutes : Int) : List (Int × Int) :=
  match sortInts slots with
  | [] => []
  | s0 :: rest =>
    let merged := mergeLoop slot_minutes s0 s0 [] rest
    if min_duration_minutes > 0 then
      merged.filter (fun r => r.2 - r.1 ≥ 60 * min_duration_minutes)
    else merged

/-- Two-digit zero-padded decimal rendering used by `strftime("%H")`,
`strftime("%M")` (its arguments here are always in `[0, 60)`). -/
def pad2 (n : Int) : String :=
  if n < 10 then "0" ++ toString n else toString n

/-- Python `str.strip()`: drop leading and trailing whitespace (the strings
stripped in this program carry at most ASCII-space padding). -/
def pyStrip (s : String) : String :=
  ⟨((s.data.dropWhile Char.isWhitespace).reverse.dropWhile
      Char.isWhitespace).reverse⟩

/-- `t.strftime("%H:%M")` for an instant `t` (seconds since midnight of the
reference day; `/` and `%` on `Int` are floor division and nonnegative
remainder for these positive divisors, as in Python). -/
def fmtHM (t : Int) : String :=
  pad2 ((t / 3600) % 24) ++ ":" ++ pad2 ((t / 60) % 60)

/-- `analyze.format_time_range`.  Note the source reads
`duration.seconds`, the seconds component of the normalized `timedelta`
(total seconds modulo 86400), not `duration.total_seconds()`. -/
def format_time_range (s e : Int) : String :=
  let secondsComponent : Int := (e - s) % 86400
  let hours : Int := secondsComponent / 3600
  let minutes : Int := (secondsComponent % 3600) / 60
  let durationStr : String :=
    (if hours > 0 then toString hours ++ "시간" else "") ++
      (if minutes > 0 then
        (if hours > 0 then " " ++ toString minutes ++ "분"
         else toString minutes ++ "분")
       else "")
  fmtHM s ++ " ~ " ++ fmtHM e ++ " (" ++ pyStrip durationStr ++ ")"

/-- The day index of an instant, modelling `start.strftime("%Y-%m-%d")`
(order-isomorphic to the rendered date string). -/
def dateKey (t : Int) : Int := t / 86400

/-- `analyze.group_by_date`: buckets ranges by the date of their start and
returns the buckets with keys in ascending order (Python
`dict(sorted(grouped.items()))`); within a bucket the ranges keep their
input order (`defaultdict(list)` appends). -/
def group_by_date (ranges : List (Int × Int)) : List (Int × List (Int × Int)) :=
  (sortInts ((ranges.map (fun r => dateKey r.1)).dedup)).map
    (fun d => (d, ranges.filter (fun r => dateKey r.1 = d)))

/-- `analyze.get_available_times_grouped`: the grouped-availability
pipeline `format ∘ groupByDate ∘ merge ∘ intersect` (the generator is
materialized by `list(...)` before merging). -/
def get_available_times_grouped (d : NormalizedData) (participants : List String)
    (min_duration_minutes : Int) : List (Int × List String) :=
  let slots := find_available_times d participants
  let merged := merge_consecutive_slots slots d.slot_minutes min_duration_minutes
  let grouped := group_by_date merged
  grouped.map (fun b => (b.1, b.2.map (fun r => format_time_range r.1 r.2)))

/-- The Python call `get_available_times_grouped(data, remaining)` with the
declared default `min_duration_minutes=60`. -/
def get_available_times_grouped_default (d : NormalizedData)
    (participants : List String) : List (Int × List String) :=
  get_available_times_grouped d participants 60

/-- `itertools.combinations(l, k)`: all `k`-element combinations in the
order `itertools` enumerates them (lexicographic in positions, each
combination keeping the list's original relative order). -/
def combinations : Nat → List String → List (List String)
  | 0, _ => [[]]
  | _ + 1, [] => []
  | k + 1, x :: xs => (combinations k xs).map (fun c => x :: c) ++ combinations (k + 1) xs

/-- CPython dict assignment `d[k] = v` on an association list: replace the
value in place when the key is present, append otherwise. -/
def dictInsert (l : List (String × α)) (k : String) (v : α) : List (String × α) :=
  if l.any (fun e => e.1 = k) then
    l.map (fun e => if e.1 = k then (k, v) else e)
  else l ++ [(k, v)]

/-- `analyze.find_alternatives`: for each `i` in `range(1, min(max_missing + 1,
len(participants)))` and each combination `missing` of `i` participants,
compute the grouped availability of the remaining participants (at the
default minimum duration of 60) and record it under the label
`", ".join(missing) + " 제외"` when it is non-empty. -/
def find_alternatives (d : NormalizedData) (participants : List String)
    (max_missing : Nat) : List (String × List (Int × List String)) :=
  (List.range' 1 (min (max_missing + 1) participants.length - 1)).foldl
    (fun acc i =>
      (combinations i participants).foldl
        (fun acc missing =>
          let remaining := participants.filter (fun p => ¬ missing.contains p)
          let grouped := get_available_times_grouped_default d remaining
          if grouped ≠ [] then
            dictInsert acc (String.intercalate ", " missing ++ " 제외") grouped
          else acc)
        acc)
    []

/-- Stable insertion of one blocker entry into a list ordered by descending
count: the new entry (earlier in the original order) goes before every entry
whose count is `≤` its own. -/
def insertDesc (x : String × Nat) : List (String × Nat) → List (String × Nat)
  | [] => [x]
  | y :: ys => if y.2 ≤ x.2 then x :: y :: ys else y :: insertDesc x ys

/-- Python `sorted(items, key=lambda x: -x[1])`: a stable sort by descending
count (any stable implementation yields the same list). -/
def sortDesc : List (String × Nat) → List (String × Nat)
  | [] => []
  | x :: xs => insertDesc x (sortDesc xs)

/-- `len(set(xs) - set(base))` for lists of instants. -/
def newSlotCount (xs base : List Int) : Nat :=
  ((xs.filter (fun t => ¬ base.contains t)).dedup).length

/-- `analyze.find_who_blocks`: the Blocker Ranker.  For each participant,
counts the slots gained when that one person is removed from the
intersection, keeps the strictly positive counts, and sorts the entries by
descending count (stable). -/
def find_who_blocks (d : NormalizedData) (participants : List String) :
    List (String × Nat) :=
  let base := find_available_times d participants
  let blockers := participants.foldl
    (fun acc person =>
      let remaining := participants.filter (fun p => p ≠ person)
      let added := newSlotCount (find_available_times d remaining) base
      if added > 0 then dictInsert acc person added else acc)
    []
  sortDesc blockers

/-- The walk described in the specification of the Merger, on an already
sorted list of instants, carrying the open range `[start, e]` directly
(no accumulator): a subsequent instant extends the open range iff it is
exactly one slot after its end, otherwise the range is closed as
`(start, e + slotMinutes)` and a new one opened; the final range is closed
the same way. -/
def mergeWalk (sm : Int) (start e : Int) : List Int → List (Int × Int)
  | [] => [(start, e + 60 * sm)]
  | t :: rest =>
    if t - e = 60 * sm then mergeWalk sm start t rest
    else (start, e + 60 * sm) :: mergeWalk sm t t rest

/-- The spec's Merger walk over a whole (sorted) list of instants. -/
def mergeWalkTop (sm : Int) : List Int → List (Int × Int)
  | [] => []
  | s0 :: rest => mergeWalk sm s0 s0 rest

/-- Re-expansion of one merged range back into its per-slot instants
`start, start + slotMinutes, ..., end − slotMinutes`. -/
def expandRange (sm : Int) (r : Int × Int) : List Int :=
  (List.range (((r.2 - r.1) / (60 * sm)).toNat)).map
    (fun i : Nat => r.1 + 60 * sm * (i : Int))

/-- A small concrete schedule used to instantiate hypotheses of the main
theorems: four 15-minute slots at 10:00, 10:15, 10:30 and 11:00 of the
reference day. -/
def exData : NormalizedData :=
  { source := "when2meet"
    name := "example"
    participants := ["Alice", "Bob", "Cara"]
    slot_minutes := 15
    slots := [36000, 36900, 37800, 39600]
    availability :=
      [(36000, ["Alice", "Bob"]),
       (36900, ["Alice", "Bob", "Cara"]),
       (37800, ["Bob"]),
       (39600, ["Alice", "Bob", "Cara"])] }

/-- The exclusion label `", ".join(missing) + " 제외"` built by
`find_alternatives`. -/
def altLabel (missing : List String) : String :=
  String.intercalate ", " missing ++ " 제외"

/-- One iteration of `find_alternatives` as an optional dictionary entry:
the grouped availability of the participants remaining after excluding
`missing`, keyed by `altLabel missing`, or nothing when it is empty. -/
def altEntry (d : NormalizedData) (ps : List String) (missing : List String) :
    Option (String × List (Int × List String)) :=
  let grouped := get_available_times_grouped_default d
    (ps.filter (fun p => ¬ missing.contains p))
  if grouped ≠ [] then some (altLabel missing, grouped) else none

/-- The exclusion sets `find_alternatives` enumerates, in enumeration
order: all `i`-combinations of the participants for `i` in
`range(1, min(max_missing + 1, len(participants)))`. -/
def allMissing (ps : List String) (mm : Nat) : List (List String) :=
  (List.range' 1 (min (mm + 1) ps.length - 1)).flatMap
    (fun i => combinations i ps)

/-- The count computed by `find_who_blocks` for one person:
`len(set(find_available_times(data, remaining)) - base_slots)` where
`remaining` drops that person from the participants. -/
def blockerAdded (d : NormalizedData) (ps : List String) (person : String) :
    Nat :=
  newSlotCount (find_available_times d (ps.filter (fun p => p ≠ person)))
    (find_available_times d ps)

/-- One iteration of `find_who_blocks` as an optional dictionary entry:
the person and their gained-slot count, kept only when positive. -/
def blockerEntry (d : NormalizedData) (ps : List String) (person : String) :
    Option (String × Nat) :=
  if blockerAdded d ps person > 0 then
    some (person, blockerAdded d ps person)
  else none

/-- A schedule with a long free run and a duplicated requested name, used
to exhibit label collision in `find_alternatives`: five 15-minute slots
from 00:00 to 01:00 with no recorded availability. -/
def dupData : NormalizedData :=
  { source := "timepick"
    name := "dup"
    participants := ["A"]
    slot_minutes := 15
    slots := [0, 900, 1800, 2700, 3600]
    availability := [] }

theorem insertLe_perm (x : Int) (l : List Int) : List.Perm (insertLe x l) (x :: l) := by
  induction l with
  | nil => simp [insertLe]
  | cons y ys ih =>
    simp only [insertLe]
    split
    · exact List.Perm.refl _
    · exact (List.Perm.cons y ih).trans (List.Perm.swap x y ys)

theorem sortInts_perm (l : List Int) : List.Perm (sortInts l) l := by
  induction l with
  | nil => simp [sortInts]
  | cons x xs ih =>
    exact (insertLe_perm x (sortInts xs)).trans (List.Perm.cons x ih)

theorem insertLe_sorted {l : List Int} (x : Int)
    (h : l.Pairwise (· ≤ ·)) : (insertLe x l).Pairwise (· ≤ ·) := by
  induction l with
  | nil => simp [insertLe]
  | cons y ys ih =>
    simp only [insertLe]
    split
    · rename_i hxy
      refine List.Pairwise.cons ?_ h
      intro b hb
      rcases List.mem_cons.mp hb with rfl | hb
      · omega
      · have := (List.pairwise_cons.mp h).1 b hb
        omega
    · rename_i hxy
      have hys := (List.pairwise_cons.mp h).2
      refine List.Pairwise.cons ?_ (ih hys)
      intro b hb
      have hb' := (insertLe_perm x ys).mem_iff.mp hb
      rcases List.mem_cons.mp hb' with rfl | hb'
      · omega
      · exact (List.pairwise_cons.mp h).1 b hb'

theorem sortInts_sorted (l : List Int) : (sortInts l).Pairwise (· ≤ ·) := by
  induction l with
  | nil => simp [sortInts]
  | cons x xs ih => exact insertLe_sorted x ih

theorem sortInts_of_sorted {l : List Int} (h : l.Pairwise (· ≤ ·)) :
    sortInts l = l := by
  induction l with
  | nil => rfl
  | cons x xs ih =>
    have hxs := (List.pairwise_cons.mp h).2
    simp only [sortInts, ih hxs]
    cases xs with
    | nil => rfl
    | cons y ys =>
      have hxy : x ≤ y := (List.pairwise_cons.mp h).1 y (by simp)
      simp [insertLe, hxy]

theorem assocGet_mem_of_mem {av : List (Int × List String)} {t : Int}
    {q : String} (h : q ∈ assocGet t av) :
    ∃ e ∈ av, q ∈ e.2 := by
  induction av with
  | nil => simp [assocGet] at h
  | cons e rest ih =>
    simp only [assocGet] at h
    split at h
    · exact ⟨e, by simp, h⟩
    · obtain ⟨e', he', hq⟩ := ih h
      exact ⟨e', by simp [he'], hq⟩

theorem mem_find_available_times {d : NormalizedData} {ps : List String}
    {t : Int} :
    t ∈ find_available_times d ps ↔ t ∈ d.slots ∧ ∀ p ∈ ps, p ∈ availAt d t := by
  simp [find_available_times, List.mem_filter, List.all_eq_true]

/-- C1: the Availability Intersector emits exactly those slots of
`schedule.slots`, in the order they appear there (a sublist, hence ascending
whenever `slots` is sorted), at which every requested participant belongs to
`availability[slot]` (the empty set when the slot is absent from the
mapping); an empty participants list makes every slot match, and a requested
name absent from `schedule.participants` (for an availability mapping whose
names all belong to `schedule.participants`) never matches and causes no
error: the function totally returns the empty list. -/
theorem c1_find_available_times_spec (d : NormalizedData) (ps : List String) :
    (find_available_times d ps).Sublist d.slots ∧
    (∀ t : Int, t ∈ find_available_times d ps ↔
      (t ∈ d.slots ∧ ∀ p ∈ ps, p ∈ availAt d t)) ∧
    find_available_times d [] = d.slots ∧
    (∀ p : String, p ∈ ps → p ∉ d.participants →
      (∀ e ∈ d.availability, ∀ q ∈ e.2, q ∈ d.participants) →
      find_available_times d ps = []) := by
  refine ⟨List.filter_sublist _, fun t => mem_find_available_times,
    by simp [find_available_times], ?_⟩
  intro p hp hnp hwf
  refine List.filter_eq_nil_iff.mpr ?_
  intro t ht hall
  have hcont := (List.all_eq_true.mp hall) p hp
  have hpav : p ∈ availAt d t := by simpa using hcont
  obtain ⟨e, he, hq⟩ := assocGet_mem_of_mem hpav
  exact hnp (hwf e he p hq)

/-- Witness for C1: a concrete schedule with a requested name `"Dan"` that
is not a participant; the intersection is the empty list, with no error. -/
theorem c1_find_available_times_spec_witness :
    ("Dan" ∈ ["Dan"] ∧ "Dan" ∉ exData.participants) ∧
    find_available_times exData ["Dan"] = [] :=
  ⟨by decide,
   (c1_find_available_times_spec exData ["Dan"]).2.2.2 "Dan" (by decide)
     (by decide) (by decide)⟩

/-- C5: subset monotonicity of the Intersector — for participant lists
`P' ⊆ P`, every slot emitted for `P` is also emitted for `P'`. -/
theorem c5_subset_monotonicity (d : NormalizedData) (P P' : List String)
    (hsub : P' ⊆ P) (t : Int) (ht : t ∈ find_available_times d P) :
    t ∈ find_available_times d P' := by
  rw [mem_find_available_times] at ht ⊢
  exact ⟨ht.1, fun p hp => ht.2 p (hsub hp)⟩

/-- Witness for C5 at a concrete schedule: slot 10:15 is common to
`["Alice", "Cara"]`, hence also to the subset `["Alice"]`. -/
theorem c5_subset_monotonicity_witness :
    (["Alice"] ⊆ ["Alice", "Cara"] ∧
      (36900 : Int) ∈ find_available_times exData ["Alice", "Cara"]) ∧
    (36900 : Int) ∈ find_available_times exData ["Alice"] :=
  ⟨⟨by decide, by decide⟩,
   c5_subset_monotonicity exData ["Alice", "Cara"] ["Alice"] (by decide) 36900
     (by decide)⟩

theorem mergeLoop_eq_walk (sm : Int) (l : List Int) :
    ∀ (start e : Int) (acc : List (Int × Int)),
      mergeLoop sm start e acc l = acc ++ mergeWalk sm start e l := by
  induction l with
  | nil => intro start e acc; simp [mergeLoop, mergeWalk]
  | cons t rest ih =>
    intro start e acc
    simp only [mergeLoop, mergeWalk]
    split
    · exact ih start t acc
    · rw [ih t t (acc ++ [(start, e + 60 * sm)]), List.append_assoc]
      rfl

theorem merge_eq_walkTop (slots : List Int) (sm : Int) :
    merge_consecutive_slots slots sm 0 = mergeWalkTop sm (sortInts slots) := by
  unfold merge_consecutive_slots mergeWalkTop
  cases sortInts slots with
  | nil => rfl
  | cons s0 rest => simp [mergeLoop_eq_walk]

/-- C2: the Merger first sorts the instants ascending and then performs
exactly the walk of the specification on the sorted list — extending the
open range `[start, end]` by a subsequent instant `t` iff `t − end` is
exactly one slot width, otherwise closing the range as
`(start, end + slotMinutes)` and opening a new one at `t`, and closing the
final range the same way.  Consequently a single isolated instant becomes a
range of width exactly `slotMinutes`, and on instants
`[10:00, 10:15, 10:30, 11:00]` at 15-minute granularity the ranges are
`[(10:00, 10:45), (11:00, 11:15)]`. -/
theorem c2_merge_consecutive_slots_walk :
    (∀ (slots : List Int) (sm : Int),
      merge_consecutive_slots slots sm 0 = mergeWalkTop sm (sortInts slots)) ∧
    (∀ sm t : Int, merge_consecutive_slots [t] sm 0 = [(t, t + 60 * sm)]) ∧
    merge_consecutive_slots [36000, 36900, 37800, 39600] 15 0 =
      [(36000, 38700), (39600, 40500)] := by
  refine ⟨merge_eq_walkTop, ?_, by rfl⟩
  intro sm t
  rw [merge_eq_walkTop]
  rfl

/-- C3: for a positive minimum duration, the Merger's result is exactly the
unfiltered merge with every range of duration strictly below the threshold
dropped (a range whose duration equals the threshold is kept, and the
filter acts only on the fully merged ranges); with a 30-minute minimum on
the merge of `[10:00, 10:15, 10:30, 11:00]` at 15-minute granularity, the
15-minute range `(11:00, 11:15)` is dropped and `(10:00, 10:45)` is kept. -/
theorem c3_min_duration_filter :
    (∀ (slots : List Int) (sm mdm : Int), 0 < mdm →
      merge_consecutive_slots slots sm mdm =
        (merge_consecutive_slots slots sm 0).filter
          (fun r => r.2 - r.1 ≥ 60 * mdm)) ∧
    merge_consecutive_slots [36000, 36900, 37800, 39600] 15 30 =
      [(36000, 38700)] := by
  refine ⟨?_, by rfl⟩
  intro slots sm mdm hmdm
  unfold merge_consecutive_slots
  cases sortInts slots with
  | nil => rfl
  | cons s0 rest =>
    simp only []
    rw [if_pos hmdm, if_neg (by omega)]

/-- Witness for C3 at the spec's own example input and a 30-minute
threshold. -/
theorem c3_min_duration_filter_witness :
    (0 : Int) < 30 ∧
    merge_consecutive_slots [36000, 36900, 37800, 39600] 15 30 =
      (merge_consecutive_slots [36000, 36900, 37800, 39600] 15 0).filter
        (fun r => r.2 - r.1 ≥ 60 * 30) :=
  ⟨by decide,
   c3_min_duration_filter.1 [36000, 36900, 37800, 39600] 15 30 (by decide)⟩

/-- Counterexample to C4 as stated: on the instants `[0, 60]` (one minute
apart) with 15-minute granularity the Merger returns the overlapping
ranges `(0, 900)` and `(60, 960)`, so the output is not pairwise
non-overlapping/non-adjacent for arbitrary instant lists. -/
theorem c4_counterexample :
    merge_consecutive_slots [0, 60] 15 0 = [(0, 900), (60, 960)] ∧
    ¬ (merge_consecutive_slots [0, 60] 15 0).Pairwise
        (fun a b => a.2 < b.1) := by
  constructor
  · rfl
  · decide

theorem mergeWalk_pairwise {sm : Int} (hsm : 0 < sm) :
    ∀ (l : List Int) (start e : Int), start ≤ e →
      List.Chain (fun a b => 60 * sm ≤ b - a) e l →
      (mergeWalk sm start e l).Pairwise (fun a b => a.1 < b.1 ∧ a.2 < b.1) ∧
        ∀ r ∈ mergeWalk sm start e l, start ≤ r.1 := by
  intro l
  induction l with
  | nil =>
    intro start e hse _
    simp [mergeWalk]
  | cons t rest ih =>
    intro start e hse hchain
    rcases hchain with _ | ⟨hgap, hchain⟩
    simp only [mergeWalk]
    split
    · rename_i heq
      exact ih start t (by omega) hchain
    · rename_i hne
      have ht : e + 60 * sm < t := by omega
      obtain ⟨hpw, hbound⟩ := ih t t le_rfl hchain
      refine ⟨List.Pairwise.cons ?_ hpw, ?_⟩
      · intro r hr
        have hr1 := hbound r hr
        exact ⟨by dsimp only; omega, by dsimp only; omega⟩
      · intro r hr
        rcases List.mem_cons.mp hr with rfl | hr
        · dsimp only; omega
        · have := hbound r hr
          omega

theorem merge_mdm_cases (slots : List Int) (sm mdm : Int) :
    merge_consecutive_slots slots sm mdm =
      if 0 < mdm then
        (mergeWalkTop sm (sortInts slots)).filter
          (fun r => r.2 - r.1 ≥ 60 * mdm)
      else mergeWalkTop sm (sortInts slots) := by
  unfold merge_consecutive_slots mergeWalkTop
  cases sortInts slots with
  | nil => simp
  | cons s0 rest =>
    simp only [mergeLoop_eq_walk, List.nil_append, gt_iff_lt]

/-- C4 (amended): the empty input gives the empty output, and whenever the
slot width is positive and any two consecutive instants of the sorted input
are at least one slot width apart (in particular whenever the instants are
distinct points of a grid of that granularity, as the Intersector produces),
the Merger's output ranges — for any minimum-duration threshold — are
strictly ascending by start and pairwise non-overlapping and non-adjacent
(each later range starts strictly after each earlier range ends).  The
unrestricted statement over every instant list is refuted by
`c4_counterexample`. -/
theorem c4_merge_ranges_separated :
    (∀ sm mdm : Int, merge_consecutive_slots [] sm mdm = []) ∧
    (∀ (slots : List Int) (sm mdm : Int), 0 < sm →
      (sortInts slots).Chain' (fun a b => 60 * sm ≤ b - a) →
      (merge_consecutive_slots slots sm mdm).Pairwise
        (fun a b => a.1 < b.1 ∧ a.2 < b.1)) := by
  constructor
  · intro sm mdm; rfl
  · intro slots sm mdm hsm hgap
    rw [merge_mdm_cases]
    have hmain : (mergeWalkTop sm (sortInts slots)).Pairwise
        (fun a b => a.1 < b.1 ∧ a.2 < b.1) := by
      unfold mergeWalkTop
      cases hl : sortInts slots with
      | nil => simp
      | cons s0 rest =>
        rw [hl] at hgap
        exact (mergeWalk_pairwise hsm rest s0 s0 le_rfl hgap).1
    split
    · exact hmain.sublist (List.filter_sublist _)
    · exact hmain

/-- Witness for C4 (amended) on well-gapped instants
`[10:00, 10:15, 11:00]` at 15-minute granularity. -/
theorem c4_merge_ranges_separated_witness :
    ((0 : Int) < 15 ∧
      (sortInts [36000, 36900, 39600]).Chain'
        (fun a b => 60 * 15 ≤ b - a)) ∧
    (merge_consecutive_slots [36000, 36900, 39600] 15 0).Pairwise
      (fun a b => a.1 < b.1 ∧ a.2 < b.1) :=
  ⟨⟨by decide, by norm_num [sortInts, insertLe, List.chain'_cons]⟩,
   c4_merge_ranges_separated.2 [36000, 36900, 39600] 15 0 (by decide)
     (by norm_num [sortInts, insertLe, List.chain'_cons])⟩

theorem fmtHM_eq_emod (t : Int) : fmtHM t = fmtHM (t % 86400) := by
  unfold fmtHM
  have h1 : (t / 3600) % 24 = ((t % 86400) / 3600) % 24 := by omega
  have h2 : (t / 60) % 60 = ((t % 86400) / 60) % 60 := by omega
  rw [h1, h2]

/-- C10: `format_time_range` derives the parenthesized duration from the
`seconds` component of `end − start` only — that is, from the duration
modulo 24 hours — so the rendition of any range is unchanged when its end
is pulled back to within one day of its start: whole days are silently
dropped from the parenthetical (a 24-hour range renders an empty
parenthetical and a 25-hour range renders as 1 hour), while the `HH:MM`
endpoints themselves are rendered correctly (they too depend only on the
clock time of each endpoint). -/
theorem c10_format_time_range_mod24h :
    (∀ s e : Int, format_time_range s e =
      format_time_range s (s + (e - s) % 86400)) ∧
    format_time_range 0 86400 = "00:00 ~ 00:00 ()" ∧
    format_time_range 0 90000 = "00:00 ~ 01:00 (1시간)" := by
  refine ⟨?_, by decide, by decide⟩
  intro s e
  simp only [format_time_range]
  have h2 : s + (e - s) % 86400 - s = (e - s) % 86400 := by ring
  have h4 : (e - s) % 86400 % 86400 = (e - s) % 86400 := by omega
  rw [h2, h4]
  have h3 : fmtHM e = fmtHM (s + (e - s) % 86400) := by
    rw [fmtHM_eq_emod e, fmtHM_eq_emod (s + (e - s) % 86400)]
    have h5 : e % 86400 = (s + (e - s) % 86400) % 86400 := by omega
    rw [h5]
  rw [h3]

theorem expandRange_run (sm start : Int) (k : Nat) (hsm : 0 < sm) :
    expandRange sm (start, start + 60 * sm * k + 60 * sm) =
      (List.range (k + 1)).map (fun i : Nat => start + 60 * sm * (i : Int)) := by
  unfold expandRange
  have h1 : start + 60 * sm * (k : Int) + 60 * sm - start = 60 * sm * ((k : Int) + 1) := by
    ring
  have h2 : (60 * sm * ((k : Int) + 1)) / (60 * sm) = (k : Int) + 1 :=
    Int.mul_ediv_cancel_left _ (by omega)
  have h3 : ((k : Int) + 1).toNat = k + 1 := by omega
  simp only [h1, h2, h3]

theorem mergeWalk_expand {sm : Int} (hsm : 0 < sm) :
    ∀ (l : List Int) (start e : Int) (k : Nat), e = start + 60 * sm * k →
      (mergeWalk sm start e l).flatMap (expandRange sm) =
        (List.range (k + 1)).map
          (fun i : Nat => start + 60 * sm * (i : Int)) ++ l := by
  intro l
  induction l with
  | nil =>
    intro start e k hk
    subst hk
    simp [mergeWalk, expandRange_run sm start k hsm]
  | cons t rest ih =>
    intro start e k hk
    simp only [mergeWalk]
    split
    · rename_i heq
      subst hk
      have ht : t = start + 60 * sm * ((k + 1 : Nat) : Int) := by
        push_cast
        linear_combination heq
      rw [ih start t (k + 1) ht, List.range_succ, List.map_append]
      have h5 : List.map (fun i : Nat => start + 60 * sm * (i : Int)) [k + 1] =
          [t] := by
        simp only [List.map_cons, List.map_nil]
        congr 1
        push_cast
        linear_combination -heq
      rw [h5]
      simp
    · rename_i hne
      subst hk
      rw [List.flatMap_cons, ih t t 0 (by push_cast; ring)]
      rw [expandRange_run sm start k hsm]
      simp [List.range_succ]

theorem merge_expand (slots : List Int) {sm : Int} (hsm : 0 < sm) :
    (merge_consecutive_slots slots sm 0).flatMap (expandRange sm) =
      sortInts slots := by
  rw [merge_eq_walkTop]
  unfold mergeWalkTop
  cases h : sortInts slots with
  | nil => simp
  | cons s0 rest =>
    rw [mergeWalk_expand hsm rest s0 s0 0 (by push_cast; ring)]
    simp [List.range_succ]

/-- C6: merge idempotence — re-expanding the ranges produced by the Merger
back into per-slot instants (`start, start + slotMinutes, ...,
end − slotMinutes` for each range) and merging that instant list again with
the same (positive) slot width yields the same list of ranges. -/
theorem c6_merge_idempotent (slots : List Int) (sm : Int) (hsm : 0 < sm) :
    merge_consecutive_slots
        ((merge_consecutive_slots slots sm 0).flatMap (expandRange sm)) sm 0 =
      merge_consecutive_slots slots sm 0 := by
  rw [merge_expand slots hsm, merge_eq_walkTop, merge_eq_walkTop,
    sortInts_of_sorted (sortInts_sorted slots)]

/-- Witness for C6 on the spec's example instants at 15-minute width. -/
theorem c6_merge_idempotent_witness :
    (0 : Int) < 15 ∧
    merge_consecutive_slots
        ((merge_consecutive_slots [36000, 36900, 37800, 39600] 15 0).flatMap
          (expandRange 15)) 15 0 =
      merge_consecutive_slots [36000, 36900, 37800, 39600] 15 0 :=
  ⟨by decide, c6_merge_idempotent [36000, 36900, 37800, 39600] 15 (by decide)⟩

theorem sortInts_eq_nil_iff {l : List Int} : sortInts l = [] ↔ l = [] := by
  constructor
  · intro h
    have hlen := (sortInts_perm l).length_eq
    rw [h] at hlen
    exact List.length_eq_zero.mp hlen.symm
  · intro h
    subst h
    rfl

theorem group_by_date_eq_nil_iff {rs : List (Int × Int)} :
    group_by_date rs = [] ↔ rs = [] := by
  unfold group_by_date
  rw [List.map_eq_nil_iff, sortInts_eq_nil_iff, List.dedup_eq_nil,
    List.map_eq_nil_iff]

/-- C7: the grouped-availability pipeline is the composition
`format ∘ groupByDate ∘ merge ∘ intersect` with the Intersector's sequence
materialized before merging; the Python default minimum duration is
60 minutes, with the caller able to pass any other value; and the result
is the empty mapping — not an error — exactly when no range survives the
merge-and-filter step. -/
theorem c7_grouped_pipeline :
    (∀ (d : NormalizedData) (ps : List String) (mdm : Int),
      get_available_times_grouped d ps mdm =
        (group_by_date
            (merge_consecutive_slots (find_available_times d ps)
              d.slot_minutes mdm)).map
          (fun b => (b.1, b.2.map (fun r => format_time_range r.1 r.2)))) ∧
    (∀ (d : NormalizedData) (ps : List String),
      get_available_times_grouped_default d ps =
        get_available_times_grouped d ps 60) ∧
    (∀ (d : NormalizedData) (ps : List String) (mdm : Int),
      get_available_times_grouped d ps mdm = [] ↔
        merge_consecutive_slots (find_available_times d ps)
          d.slot_minutes mdm = []) := by
  refine ⟨fun d ps mdm => rfl, fun d ps => rfl, ?_⟩
  intro d ps mdm
  simp only [get_available_times_grouped]
  rw [List.map_eq_nil_iff, group_by_date_eq_nil_iff]

theorem insertDesc_perm (x : String × Nat) (l : List (String × Nat)) :
    List.Perm (insertDesc x l) (x :: l) := by
  induction l with
  | nil => simp [insertDesc]
  | cons y ys ih =>
    simp only [insertDesc]
    split
    · exact List.Perm.refl _
    · exact (List.Perm.cons y ih).trans (List.Perm.swap x y ys)

theorem sortDesc_perm (l : List (String × Nat)) :
    List.Perm (sortDesc l) l := by
  induction l with
  | nil => simp [sortDesc]
  | cons x xs ih =>
    exact (insertDesc_perm x (sortDesc xs)).trans (List.Perm.cons x ih)

theorem insertDesc_pairwise {l : List (String × Nat)} (x : String × Nat)
    (h : l.Pairwise (fun a b => b.2 ≤ a.2)) :
    (insertDesc x l).Pairwise (fun a b => b.2 ≤ a.2) := by
  induction l with
  | nil => simp [insertDesc]
  | cons y ys ih =>
    simp only [insertDesc]
    split
    · rename_i hxy
      refine List.Pairwise.cons ?_ h
      intro b hb
      rcases List.mem_cons.mp hb with rfl | hb
      · omega
      · have := (List.pairwise_cons.mp h).1 b hb
        omega
    · rename_i hxy
      have hys := (List.pairwise_cons.mp h).2
      refine List.Pairwise.cons ?_ (ih hys)
      intro b hb
      have hb' := (insertDesc_perm x ys).mem_iff.mp hb
      rcases List.mem_cons.mp hb' with rfl | hb'
      · omega
      · exact (List.pairwise_cons.mp h).1 b hb'

theorem sortDesc_pairwise (l : List (String × Nat)) :
    (sortDesc l).Pairwise (fun a b => b.2 ≤ a.2) := by
  induction l with
  | nil => simp [sortDesc]
  | cons x xs ih => exact insertDesc_pairwise x ih

theorem insertDesc_filter (x : String × Nat) (l : List (String × Nat))
    (v : Nat) :
    (insertDesc x l).filter (fun e => e.2 == v) =
      if x.2 = v then x :: l.filter (fun e => e.2 == v)
      else l.filter (fun e => e.2 == v) := by
  induction l with
  | nil =>
    simp only [insertDesc]
    by_cases hx : x.2 = v
    · simp [List.filter_cons, hx]
    · simp [List.filter_cons, hx]
  | cons y ys ih =>
    simp only [insertDesc]
    split
    · rename_i hyx
      by_cases hx : x.2 = v
      · simp [List.filter_cons, hx]
      · simp [List.filter_cons, hx]
    · rename_i hyx
      by_cases hx : x.2 = v
      · have hy : ¬ y.2 = v := by omega
        simp [List.filter_cons, hy, ih, hx]
      · by_cases hyv : y.2 = v
        · simp [List.filter_cons, hyv, ih, hx]
        · simp [List.filter_cons, hyv, ih, hx]

theorem sortDesc_filter (l : List (String × Nat)) (v : Nat) :
    (sortDesc l).filter (fun e => e.2 == v) =
      l.filter (fun e => e.2 == v) := by
  induction l with
  | nil => rfl
  | cons x xs ih =>
    simp only [sortDesc]
    rw [insertDesc_filter x (sortDesc xs) v, ih]
    by_cases hx : x.2 = v
    · simp [List.filter_cons, hx]
    · simp [List.filter_cons, hx]

theorem dictInsert_of_fresh {α : Type} (acc : List (String × α)) (k : String)
    (v : α) (h : ∀ e ∈ acc, e.1 ≠ k) :
    dictInsert acc k v = acc ++ [(k, v)] := by
  unfold dictInsert
  rw [if_neg]
  intro hany
  obtain ⟨e, he, hek⟩ := List.any_eq_true.mp hany
  exact h e he (by simpa using hek)

theorem foldl_dictInsert_eq {β : Type} {α : Type}
    (f : β → Option (String × α))
    (step : List (String × α) → β → List (String × α))
    (hstep : ∀ a x, step a x = match f x with
      | some kv => dictInsert a kv.1 kv.2
      | none => a) :
    ∀ (xs : List β) (acc : List (String × α)),
      ((xs.filterMap f).map Prod.fst).Nodup →
      (∀ e ∈ acc, ∀ y ∈ xs.filterMap f, e.1 ≠ y.1) →
      xs.foldl step acc = acc ++ xs.filterMap f := by
  intro xs
  induction xs with
  | nil => intro acc _ _; simp
  | cons x rest ih =>
    intro acc hnodup hdisj
    rw [List.foldl_cons]
    cases hfx : f x with
    | none =>
      rw [List.filterMap_cons_none hfx] at hnodup hdisj ⊢
      simp only [hstep, hfx]
      exact ih acc hnodup hdisj
    | some kv =>
      rw [List.filterMap_cons_some hfx] at hnodup hdisj ⊢
      simp only [hstep, hfx]
      have hfresh : ∀ e ∈ acc, e.1 ≠ kv.1 := by
        intro e he
        exact hdisj e he kv (by simp)
      rw [dictInsert_of_fresh acc kv.1 kv.2 hfresh]
      rw [List.map_cons] at hnodup
      have hhead := (List.nodup_cons.mp hnodup).1
      have hnodup' := (List.nodup_cons.mp hnodup).2
      rw [ih (acc ++ [(kv.1, kv.2)]) hnodup' ?_]
      · simp
      · intro e he y hy
        rcases List.mem_append.mp he with he | he
        · exact hdisj e he y (List.mem_cons_of_mem _ hy)
        · have he2 : e = (kv.1, kv.2) := by simpa using he
          subst he2
          intro hc
          exact hhead (hc ▸ List.mem_map_of_mem Prod.fst hy)

theorem filterMap_keys_sublist {β : Type} {α : Type}
    (f : β → Option (String × α)) (lab : β → String)
    (hf : ∀ x kv, f x = some kv → kv.1 = lab x) :
    ∀ xs : List β,
      ((xs.filterMap f).map Prod.fst).Sublist (xs.map lab) := by
  intro xs
  induction xs with
  | nil => simp
  | cons x rest ih =>
    cases hfx : f x with
    | none =>
      rw [List.filterMap_cons_none hfx, List.map_cons]
      exact ih.cons _
    | some kv =>
      rw [List.filterMap_cons_some hfx, List.map_cons, List.map_cons,
        hf x kv hfx]
      exact ih.cons₂ _

theorem blockerEntry_key {d : NormalizedData} {ps : List String} :
    ∀ x kv, blockerEntry d ps x = some kv → kv.1 = x := by
  intro x kv h
  unfold blockerEntry at h
  split at h
  · injection h with h2
    subst h2
    rfl
  · cases h

theorem find_who_blocks_eq (d : NormalizedData) (ps : List String)
    (hnd : ps.Nodup) :
    find_who_blocks d ps = sortDesc (ps.filterMap (blockerEntry d ps)) := by
  have hkeys : ((ps.filterMap (blockerEntry d ps)).map Prod.fst).Nodup := by
    have hsub := filterMap_keys_sublist (blockerEntry d ps) id
      (fun x kv h => blockerEntry_key x kv h) ps
    rw [List.map_id] at hsub
    exact hnd.sublist hsub
  simp only [find_who_blocks]
  congr 1
  rw [foldl_dictInsert_eq (blockerEntry d ps) _ ?_ ps [] hkeys (by simp)]
  · simp
  · intro a x
    show (if blockerAdded d ps x > 0 then dictInsert a x (blockerAdded d ps x)
        else a) = _
    by_cases hx : blockerAdded d ps x > 0
    · rw [if_pos hx]
      simp [blockerEntry, hx]
    · rw [if_neg hx]
      simp [blockerEntry, hx]

/-- C9: for participant lists with unique names, the Blocker Ranker's
result contains the pair `(p, n)` exactly when `p` is a requested
participant whose removal gains `n > 0` slots — `n` being the number of
slots in the intersection without `p` that are not in the base
intersection; the result is ordered by descending count, and entries with
equal count keep the relative order the participants had in the input list
(the entries with any fixed count are exactly the qualifying participants
with that count, in original order). -/
theorem c9_find_who_blocks_spec (d : NormalizedData) (ps : List String)
    (hnd : ps.Nodup) :
    (∀ (p : String) (n : Nat),
      (p, n) ∈ find_who_blocks d ps ↔
        p ∈ ps ∧ n = blockerAdded d ps p ∧ 0 < n) ∧
    (find_who_blocks d ps).Pairwise (fun a b => b.2 ≤ a.2) ∧
    (∀ v : Nat,
      (find_who_blocks d ps).filter (fun e => e.2 == v) =
        (ps.filterMap (blockerEntry d ps)).filter (fun e => e.2 == v)) := by
  rw [find_who_blocks_eq d ps hnd]
  refine ⟨?_, sortDesc_pairwise _, fun v => sortDesc_filter _ v⟩
  intro p n
  rw [(sortDesc_perm _).mem_iff, List.mem_filterMap]
  constructor
  · rintro ⟨x, hx, hfx⟩
    unfold blockerEntry at hfx
    split at hfx
    · rename_i hpos
      injection hfx with h2
      have hx1 : x = p := congrArg Prod.fst h2
      have hx2 : blockerAdded d ps x = n := congrArg Prod.snd h2
      subst hx1
      exact ⟨hx, hx2.symm, hx2 ▸ hpos⟩
    · cases hfx
  · rintro ⟨hp, hn, hpos⟩
    refine ⟨p, hp, ?_⟩
    unfold blockerEntry
    rw [if_pos (show blockerAdded d ps p > 0 from hn ▸ hpos), ← hn]

/-- Witness for C9 at the concrete schedule: only Cara blocks a slot
(10:00, where Alice and Bob are free), gaining exactly one slot. -/
theorem c9_find_who_blocks_spec_witness :
    ["Alice", "Bob", "Cara"].Nodup ∧
    (("Cara", 1) ∈ find_who_blocks exData ["Alice", "Bob", "Cara"] ↔
      "Cara" ∈ ["Alice", "Bob", "Cara"] ∧
        1 = blockerAdded exData ["Alice", "Bob", "Cara"] "Cara" ∧ 0 < 1) :=
  ⟨by decide,
   (c9_find_who_blocks_spec exData ["Alice", "Bob", "Cara"] (by decide)).1
     "Cara" 1⟩

theorem foldl_flatMap {γ β δ : Type} (g : γ → List β) (F : δ → β → δ) :
    ∀ (l : List γ) (init : δ),
      (l.flatMap g).foldl F init =
        l.foldl (fun a i => (g i).foldl F a) init := by
  intro l
  induction l with
  | nil => intro init; rfl
  | cons x rest ih =>
    intro init
    rw [List.flatMap_cons, List.foldl_append, List.foldl_cons, ih]

theorem altEntry_key {d : NormalizedData} {ps : List String} :
    ∀ x kv, altEntry d ps x = some kv → kv.1 = altLabel x := by
  intro x kv h
  simp only [altEntry] at h
  split at h
  · injection h with h2
    subst h2
    rfl
  · cases h

theorem find_alternatives_eq (d : NormalizedData) (ps : List String)
    (mm : Nat) (hkeys : ((allMissing ps mm).map altLabel).Nodup) :
    find_alternatives d ps mm =
      (allMissing ps mm).filterMap (altEntry d ps) := by
  have hkeys' : (((allMissing ps mm).filterMap (altEntry d ps)).map
      Prod.fst).Nodup := by
    have hsub := filterMap_keys_sublist (altEntry d ps) altLabel
      (fun x kv h => altEntry_key x kv h) (allMissing ps mm)
    exact hkeys.sublist hsub
  simp only [find_alternatives]
  rw [← foldl_flatMap (fun i => combinations i ps) _
    (List.range' 1 (min (mm + 1) ps.length - 1)) []]
  have hall : ((List.range' 1 (min (mm + 1) ps.length - 1)).flatMap
      fun i => combinations i ps) = allMissing ps mm := rfl
  rw [hall]
  rw [foldl_dictInsert_eq (altEntry d ps) _ ?_ (allMissing ps mm) []
    hkeys' (by simp)]
  · simp
  · intro a x
    show (if get_available_times_grouped_default d
          (ps.filter (fun p => ¬ x.contains p)) ≠ [] then
        dictInsert a (String.intercalate ", " x ++ " 제외")
          (get_available_times_grouped_default d
            (ps.filter (fun p => ¬ x.contains p)))
      else a) = _
    by_cases hx : get_available_times_grouped_default d
        (ps.filter (fun p => ¬ x.contains p)) ≠ []
    · rw [if_pos hx]
      have hsome : altEntry d ps x = some (altLabel x,
          get_available_times_grouped_default d
            (ps.filter (fun p => ¬ x.contains p))) := by
        unfold altEntry
        exact if_pos hx
      rw [hsome]
      rfl
    · rw [if_neg hx]
      have hnone : altEntry d ps x = none := by
        unfold altEntry
        exact if_neg hx
      rw [hnone]

/-- Counterexample to C8 as stated: with the duplicated request
`["A", "A"]` the Alternative Finder enumerates two qualifying
one-person combinations (each with non-empty grouped availability), but
both carry the same label, so the dictionary holds a single entry and the
label is not unique per combination. -/
theorem c8_counterexample :
    (combinations 1 ["A", "A"]).length = 2 ∧
    (∀ missing ∈ combinations 1 ["A", "A"],
      get_available_times_grouped_default dupData
        (["A", "A"].filter (fun p => ¬ missing.contains p)) ≠ []) ∧
    (find_alternatives dupData ["A", "A"] 1).length = 1 ∧
    ¬ ((combinations 1 ["A", "A"]).map altLabel).Nodup := by
  refine ⟨by decide, by decide, by decide, by decide⟩

/-- C8 (amended): whenever the exclusion labels of the enumerated
combinations are pairwise distinct — as is the case when participant names
are unique and no label collision arises from the `", "` separator — the
Alternative Finder's result is exactly one entry per combination of `i`
participants, `i` ranging over `1 .. min(maxMissing, |participants| − 1)`,
whose remaining participants have non-empty grouped availability, in
enumeration order; the entry's key is the excluded names joined by `", "`
followed by the fixed suffix `" 제외"` and its value is that grouped
availability.  Without label distinctness the dictionary collapses
colliding combinations (`c8_counterexample`). -/
theorem c8_find_alternatives_spec (d : NormalizedData) (ps : List String)
    (mm : Nat) (hkeys : ((allMissing ps mm).map altLabel).Nodup) :
    find_alternatives d ps mm =
      (allMissing ps mm).filterMap (altEntry d ps) ∧
    (∀ (k : String) (v : List (Int × List String)),
      (k, v) ∈ find_alternatives d ps mm ↔
        ∃ missing ∈ allMissing ps mm,
          get_available_times_grouped_default d
              (ps.filter (fun p => ¬ missing.contains p)) = v ∧
          v ≠ [] ∧ k = altLabel missing) := by
  have heq := find_alternatives_eq d ps mm hkeys
  refine ⟨heq, ?_⟩
  intro k v
  rw [heq, List.mem_filterMap]
  constructor
  · rintro ⟨m, hm, hfm⟩
    simp only [altEntry] at hfm
    split at hfm
    · rename_i hne
      injection hfm with h2
      injection h2 with hk2 hv2
      exact ⟨m, hm, hv2, hv2 ▸ hne, hk2.symm⟩
    · cases hfm
  · rintro ⟨m, hm, hv, hne, hk⟩
    refine ⟨m, hm, ?_⟩
    simp only [altEntry]
    rw [hv, if_pos hne, hk]

/-- Witness for C8 (amended) at the concrete schedule with three uniquely
named participants and `max_missing = 1`. -/
theorem c8_find_alternatives_spec_witness :
    ((allMissing ["Alice", "Bob", "Cara"] 1).map altLabel).Nodup ∧
    find_alternatives exData ["Alice", "Bob", "Cara"] 1 =
      (allMissing ["Alice", "Bob", "Cara"] 1).filterMap
        (altEntry exData ["Alice", "Bob", "Cara"]) :=
  ⟨by decide,
   (c8_find_alternatives_spec exData ["Alice", "Bob", "Cara"] 1
     (by decide)).1⟩
